import Mathlib

/-!
Verification of the crossword CSP solver (`CrosswordCreator` in
`Week3/Project3/crossword/generate.py`).

The solver's collaborator (the `Crossword` class: slots, overlaps, neighbor
lookup, vocabulary) is modelled abstractly as the structure `CSP`, matching the
data the solver reads from it.  All solver operations
(`enforce_node_consistency`, `check_overlap`, `revise`, `ac3`,
`assignment_complete`, `consistent`, `order_domain_values`,
`select_unassigned_variable`, `backtrack`, `solve`) are translated into
executable Lean functions.

Modelling conventions:
* Python sets of words are modelled by their iteration lists (`List Word`);
  Python's set iteration order is unspecified, the model fixes one.
* Python dicts keyed by variables are modelled as total functions
  `Slot → List Word`; the key set of `self.domains` is always the full
  variable set, which the model keeps implicit (the node-consistency pass
  filters exactly at slots in `CSP.vars`, the dict's keys).
* `ac3`'s `while` loop is modelled with explicit fuel (`ac3Go`), plus a
  computable fuel bound `ac3Fuel` that is proved sufficient, so `ac3` is a
  total function agreeing with the Python loop.
* `backtrack` mutates `self.domains` through rebinding
  (`self.domains = prev_domains`), so dict object identity matters there.
  The model uses a small heap (`Heap := List Domains`) of dict objects with
  indices as references: `deepcopy` allocates, in-place mutation writes
  through the current reference, and `self.domains = prev_domains` rebinds
  the current reference to the snapshot's reference.
* Python list indexing `word[i]` is modelled by `List.getD` (the solver only
  indexes at overlap offsets of length-filtered words, where both agree).
-/

abbrev Word := List Char

/-- A slot (`Variable` in the source): identity is (row, column, direction,
length).  `down = true` models `Variable.DOWN`. -/
structure Slot where
  row : Nat
  col : Nat
  down : Bool
  length : Nat
deriving DecidableEq, Repr

/-- The read-only constraint-graph collaborator (`self.crossword`): the slot
set, the vocabulary, the overlap relation and the neighbor lookup.
`neighbors_mem` records that neighbor lookup only returns slots of the
puzzle, which holds for the `Crossword` collaborator. -/
structure CSP where
  vars : List Slot
  words : List Word
  overlaps : Slot → Slot → Option (Nat × Nat)
  neighbors : Slot → List Slot
  neighbors_mem : ∀ v u, u ∈ neighbors v → u ∈ vars

/-- The domain store `self.domains`: one set (iteration list) of candidate
words per slot. -/
abbrev Domains := Slot → List Word

/-- The assignment dict, in insertion order. -/
abbrev Assignment := List (Slot × Word)

/-- Heap of domain-store dict objects; a reference is an index. -/
abbrev Heap := List Domains

/-- Dereference a domain-store object. -/
def getDom (h : Heap) (c : Nat) : Domains :=
  h.getD c (fun _ => [])

/-- Model of `CrosswordCreator.__init__`: every slot's domain starts as a copy of the
full vocabulary. -/
def initDomains (csp : CSP) : Domains :=
  fun _ => csp.words

/-- Model of `CrosswordCreator.check_overlap`: `True` when the two slots do not
overlap, otherwise compare the characters at the overlap offsets. -/
def checkOverlap (csp : CSP) (x y : Slot) (wx wy : Word) : Bool :=
  match csp.overlaps x y with
  | none => true
  | some (i, j) => wx.getD i 'A' == wy.getD j 'A'

/-- The spec's compatibility relation, as a proposition: if no overlap exists
between `x` and `y` every pair is compatible, otherwise the characters at the
overlap offsets must be equal. -/
def Compatible (csp : CSP) (x y : Slot) (wx wy : Word) : Prop :=
  match csp.overlaps x y with
  | none => True
  | some (i, j) => wx.getD i 'A' = wy.getD j 'A'

/-- The keep-test of `CrosswordCreator.revise`: `word_x` stays iff some
distinct `word_y` in `domain(y)` passes `check_overlap`. -/
def reviseKeep (csp : CSP) (x y : Slot) (d : Domains) (wx : Word) : Bool :=
  (d y).any (fun wy => !(wx == wy) && checkOverlap csp x y wx wy)

/-- Model of `CrosswordCreator.revise`: remove from `domain(x)` every word with no
distinct compatible partner in `domain(y)`; return whether anything was
removed, together with the updated store. -/
def revise (csp : CSP) (x y : Slot) (d : Domains) : Bool × Domains :=
  ((d x).any (fun wx => !(reviseKeep csp x y d wx)),
   fun v => if v = x then (d x).filter (reviseKeep csp x y d) else d v)

/-- Arcs `(z, x)` re-enqueued by `ac3` after `revise(x, y)` removed a word:
every neighbor `z` of `x` other than `y`. -/
def reenq (csp : CSP) (x y : Slot) : List (Slot × Slot) :=
  ((csp.neighbors x).filter (fun z => !(z == y))).map (fun z => (z, x))

/-- Weight of a queued arc, for the fuel bound of `ac3`. -/
def arcWeight (csp : CSP) (p : Slot × Slot) : Nat :=
  1 + (if p.1 ∈ csp.vars then 0 else (csp.neighbors p.1).length)

/-- Total weight of the `ac3` worklist. -/
def queueWeight (csp : CSP) (q : List (Slot × Slot)) : Nat :=
  (q.map (arcWeight csp)).sum

/-- Total size of the measured part of the domain store. -/
def domSize (csp : CSP) (d : Domains) : Nat :=
  (csp.vars.map (fun v => (d v).length)).sum

/-- Largest neighbor count over the puzzle's slots. -/
def maxDeg (csp : CSP) : Nat :=
  (csp.vars.map (fun v => (csp.neighbors v).length)).foldr max 0

/-- A fuel amount sufficient for `ac3Go` to finish (proved in
`ac3Go_isSome_of_fuel`). -/
def ac3Fuel (csp : CSP) (q : List (Slot × Slot)) (d : Domains) : Nat :=
  queueWeight csp q + (maxDeg csp + 1) * domSize csp d

/-- The loop of `CrosswordCreator.ac3`, with explicit fuel: pop an arc from
the front; if `revise` removed anything, fail when `domain(x)` emptied and
otherwise append the arcs `(z, x)` to the back; stop with success when the
queue empties.  `none` means the fuel ran out. -/
def ac3Go (csp : CSP) : Nat → List (Slot × Slot) → Domains → Option (Bool × Domains)
  | _, [], d => some (true, d)
  | 0, _ :: _, _ => none
  | fuel + 1, (x, y) :: q, d =>
    let r := revise csp x y d
    if r.1 then
      if (r.2 x).isEmpty then some (false, r.2)
      else ac3Go csp fuel (q ++ reenq csp x y) r.2
    else ac3Go csp fuel q r.2

/-- Model of `CrosswordCreator.ac3` on an explicit initial arc list: run the loop with
sufficient fuel. -/
def ac3 (csp : CSP) (q : List (Slot × Slot)) (d : Domains) : Bool × Domains :=
  (ac3Go csp (ac3Fuel csp q d) q d).getD (false, d)

/-- The default arc list of `ac3` (its `arcs is None` branch): every pair
`(var, neighbor)`. -/
def globalArcs (csp : CSP) : List (Slot × Slot) :=
  csp.vars.flatMap (fun v => (csp.neighbors v).map (fun n => (v, n)))

/-- Model of `CrosswordCreator.enforce_node_consistency`: for every slot in the store
(its keys are the puzzle's variables), drop the words whose length differs
from the slot's length. -/
def enforceNodeConsistency (csp : CSP) (d : Domains) : Domains :=
  fun v => if v ∈ csp.vars then (d v).filter (fun w => w.length == v.length) else d v

/-- Model of `CrosswordCreator.assignment_complete`: compare sizes. -/
def assignmentComplete (csp : CSP) (a : Assignment) : Bool :=
  csp.vars.length == a.length

/-- Dict membership test `var in assignment`. -/
def hasKey (a : Assignment) (v : Slot) : Bool :=
  a.any (fun p => p.1 == v)

/-- Dict lookup `assignment[var]`. -/
def lookupA (a : Assignment) (v : Slot) : Option Word :=
  (a.find? (fun p => p.1 == v)).map (fun p => p.2)

/-- The loop of `CrosswordCreator.consistent` over the items of the
assignment, carrying the `used` set. -/
def consistentGo (csp : CSP) (a : Assignment) : Assignment → List Word → Bool
  | [], _ => true
  | (v, w) :: rest, used =>
    if !(w.length == v.length) || used.contains w then false
    else if !((csp.neighbors v).all fun n =>
        match lookupA a n with
        | none => true
        | some w2 => checkOverlap csp v n w w2) then false
    else consistentGo csp a rest (w :: used)

/-- Model of `CrosswordCreator.consistent`: lengths match, values pairwise distinct,
assigned neighbors agree at overlaps. -/
def consistent (csp : CSP) (a : Assignment) : Bool :=
  consistentGo csp a a []

/-- Boolean lexicographic order on `(Nat, Int)` sort keys. -/
def lexLe (p q : Nat × Int) : Bool :=
  p.1 < q.1 || (p.1 == q.1 && p.2 ≤ q.2)

/-- Stable insertion into a sorted list (Python's `sort` is stable). -/
def insertLe (le : α → α → Bool) (x : α) : List α → List α
  | [] => [x]
  | y :: ys => if le x y then x :: y :: ys else y :: insertLe le x ys

/-- Stable sort (same result as Python's stable `list.sort`). -/
def stableSortBy (le : α → α → Bool) : List α → List α
  | [] => []
  | x :: xs => insertLe le x (stableSortBy le xs)

/-- Sort key of `select_unassigned_variable`:
`(len(self.domains[x]), -len(self.crossword.neighbors(x)))`. -/
def selKey (csp : CSP) (d : Domains) (v : Slot) : Nat × Int :=
  ((d v).length, -((csp.neighbors v).length : Int))

/-- Model of `CrosswordCreator.select_unassigned_variable`: stable-sort the unassigned
slots by (domain size, -degree) and take the first; `none` models the
(unreachable in the solver) empty-candidate crash. -/
def selectUnassignedVariable (csp : CSP) (d : Domains) (a : Assignment) : Option Slot :=
  match stableSortBy (fun u v => lexLe (selKey csp d u) (selKey csp d v))
      (csp.vars.filter (fun v => !(hasKey a v))) with
  | [] => none
  | v :: _ => some v

/-- The count of `order_domain_values`: how many neighbor-domain words are
overlap-incompatible with `value`. -/
def ruleOutCount (csp : CSP) (d : Domains) (var : Slot) (value : Word) : Nat :=
  ((csp.neighbors var).map
    (fun n => ((d n).filter (fun w => !(checkOverlap csp var n value w))).length)).sum

/-- Model of `CrosswordCreator.order_domain_values`: the domain list of `var`,
stable-sorted ascending by `ruleOutCount`. -/
def orderDomainValues (csp : CSP) (d : Domains) (var : Slot) : List Word :=
  stableSortBy
    (fun a b => decide (ruleOutCount csp d var a ≤ ruleOutCount csp d var b)) (d var)

/-- Python truthiness of `backtrack`'s result (`if result:`): a dict is falsy
when empty. -/
def truthy : Option Assignment → Bool
  | none => false
  | some a => !a.isEmpty

/-- Model of `del assignment[var]`. -/
def delKey (a : Assignment) (v : Slot) : Assignment :=
  a.eraseP (fun p => p.1 == v)

/-- Result of a `backtrack` call: returned value, final heap of dict objects,
final `self.domains` reference, final contents of the assignment dict. -/
structure BTRes where
  res : Option Assignment
  heap : Heap
  cur : Nat
  assign : Assignment

/-- The store mutation of a branch step of `backtrack`:
`self.domains[var] = {value}` followed by
`self.ac3((neighbor, var) for neighbor in self.crossword.neighbors(var))`,
whose boolean result the caller ignores. -/
def branchDomains (csp : CSP) (var : Slot) (value : Word) (d : Domains) : Domains :=
  (ac3 csp ((csp.neighbors var).map (fun n => (n, var)))
    (fun v => if v = var then [value] else d v)).2

/-- The `for value in ...` loop of `CrosswordCreator.backtrack`.  `rec` is the
recursive call (at one less fuel).  On a failed branch the code runs
`del assignment[var]` and `self.domains = prev_domains`, i.e. it rebinds the
current reference to `prevRef` without copying. -/
def btLoop (csp : CSP) (rec : Heap → Nat → Assignment → BTRes) (var : Slot)
    (prevRef : Nat) : List Word → Heap → Nat → Assignment → BTRes
  | [], h, c, a => ⟨none, h, c, a⟩
  | value :: rest, h, c, a =>
    if consistent csp a then
      let r := rec (h.set c (branchDomains csp var value (getDom h c))) c
        (a ++ [(var, value)])
      if truthy r.res then r
      else btLoop csp rec var prevRef rest r.heap prevRef (delKey r.assign var)
    else btLoop csp rec var prevRef rest h c a

/-- Model of `CrosswordCreator.backtrack`, with fuel bounding the recursion depth
(`vars.length + 1` always suffices since each recursive call extends the
assignment with a fresh slot).  The frame snapshots the store
(`prev_domains = deepcopy(self.domains)`) by allocating a copy at `h.length`. -/
def bt (csp : CSP) : Nat → Heap → Nat → Assignment → BTRes
  | 0, h, c, a => ⟨none, h, c, a⟩
  | fuel + 1, h, c, a =>
    if assignmentComplete csp a then ⟨some a, h, c, a⟩
    else
      match selectUnassignedVariable csp (getDom h c) a with
      | none => ⟨none, h, c, a⟩
      | some var =>
        btLoop csp (bt csp fuel) var h.length
          (orderDomainValues csp (getDom h c) var)
          (h ++ [getDom h c]) c a

/-- The domain store right before `solve` calls `backtrack`: node consistency,
then one global `ac3` pass whose boolean result `solve` ignores. -/
def solveStart (csp : CSP) : Domains :=
  (ac3 csp (globalArcs csp) (enforceNodeConsistency csp (initDomains csp))).2

/-- The full `backtrack(dict())` run performed by `solve`, with its final
state. -/
def solveRun (csp : CSP) : BTRes :=
  bt csp (csp.vars.length + 1) [solveStart csp] 0 []

/-- Model of `CrosswordCreator.solve`: node consistency, global `ac3`, then
backtracking from the empty assignment. -/
def solve (csp : CSP) : Option Assignment :=
  (solveRun csp).res

/-! ## Concrete puzzles used as counterexamples and witnesses -/

/-- A length-3 across slot at row 0. -/
def sA : Slot := ⟨0, 0, false, 3⟩

/-- A length-3 across slot at row 1. -/
def sB : Slot := ⟨1, 0, false, 3⟩

/-- A length-3 across slot at row 2. -/
def sC : Slot := ⟨2, 0, false, 3⟩

/-- The word CAT. -/
def wCAT : Word := ['C', 'A', 'T']

/-- The word AAA. -/
def wAAA : Word := ['A', 'A', 'A']

/-- The word BBB. -/
def wBBB : Word := ['B', 'B', 'B']

/-- The word AAB. -/
def wAAB : Word := ['A', 'A', 'B']

/-- The word ACC. -/
def wACC : Word := ['A', 'C', 'C']

/-- Two disconnected length-3 slots and the single word CAT: the only
complete assignment repeats CAT. -/
def exDisc : CSP where
  vars := [sA, sB]
  words := [wCAT]
  overlaps := fun _ _ => none
  neighbors := fun _ => []
  neighbors_mem := by intro v u h; cases h

/-- Overlap of the crossing-pair puzzle: the two slots share their first
characters. -/
def crossOv (x y : Slot) : Option (Nat × Nat) :=
  if (x = sA ∧ y = sB) ∨ (x = sB ∧ y = sA) then some (0, 0) else none

/-- Two crossing slots whose words must share the first character, with
vocabulary {AAA, BBB}: the global `ac3` pass empties a domain. -/
def exCross : CSP where
  vars := [sA, sB]
  words := [wAAA, wBBB]
  overlaps := crossOv
  neighbors := fun v => [sA, sB].filter (fun u => (crossOv v u).isSome)
  neighbors_mem := fun _ _ h => (List.mem_filter.mp h).1

/-- Membership in the triangle puzzle's slot set. -/
def triMem (v : Slot) : Bool := v == sA || v == sB || v == sC

/-- Overlap of the triangle puzzle: any two distinct slots share their first
characters. -/
def triOv (x y : Slot) : Option (Nat × Nat) :=
  if !(x == y) && triMem x && triMem y then some (0, 0) else none

/-- Three pairwise-crossing slots sharing first characters, with vocabulary
{AAB, ACC}: arc consistent globally but unsolvable, so backtracking tries and
undoes two candidates in its outermost frame. -/
def exTri : CSP where
  vars := [sA, sB, sC]
  words := [wAAB, wACC]
  overlaps := triOv
  neighbors := fun v => [sA, sB, sC].filter (fun u => (triOv v u).isSome)
  neighbors_mem := fun _ _ h => (List.mem_filter.mp h).1

/-! ## Basic lemmas about the filtering operations -/

/-- Membership after node consistency, at a slot of the store. -/
theorem enforce_mem (csp : CSP) (d : Domains) (v : Slot) (hv : v ∈ csp.vars) (w : Word) :
    w ∈ enforceNodeConsistency csp d v ↔ w ∈ d v ∧ w.length = v.length := by
  simp [enforceNodeConsistency, hv, List.mem_filter]

/-- Node consistency does not touch slots outside the store's key set. -/
theorem enforce_not_mem (csp : CSP) (d : Domains) (v : Slot) (hv : v ∉ csp.vars) :
    enforceNodeConsistency csp d v = d v := by
  simp [enforceNodeConsistency, hv]

/-- Lemma: `check_overlap` decides the spec's compatibility relation. -/
theorem checkOverlap_iff (csp : CSP) (x y : Slot) (wx wy : Word) :
    checkOverlap csp x y wx wy = true ↔ Compatible csp x y wx wy := by
  unfold checkOverlap Compatible
  cases csp.overlaps x y with
  | none => simp
  | some p => cases p with
    | mk i j => simp

/-- The keep-test of `revise` decides the spec's
"some distinct compatible partner exists in domain(y)" condition. -/
theorem reviseKeep_iff (csp : CSP) (x y : Slot) (d : Domains) (w : Word) :
    reviseKeep csp x y d w = true ↔ ∃ w2 ∈ d y, w2 ≠ w ∧ Compatible csp x y w w2 := by
  unfold reviseKeep
  simp only [List.any_eq_true, Bool.and_eq_true, Bool.not_eq_true', beq_eq_false_iff_ne,
    checkOverlap_iff]
  constructor
  · rintro ⟨w2, hm, hne, hc⟩
    exact ⟨w2, hm, Ne.symm hne, hc⟩
  · rintro ⟨w2, hm, hne, hc⟩
    exact ⟨w2, hm, Ne.symm hne, hc⟩

/-- Lemma: `revise x y` leaves every domain other than `domain(x)` unchanged. -/
theorem revise_ne (csp : CSP) (x y v : Slot) (d : Domains) (hv : v ≠ x) :
    (revise csp x y d).2 v = d v := by
  simp [revise, hv]

/-- The revised `domain(x)` is the filter of the old one by the keep-test. -/
theorem revise_at (csp : CSP) (x y : Slot) (d : Domains) :
    (revise csp x y d).2 x = (d x).filter (reviseKeep csp x y d) := by
  simp [revise]

/-- Lemma: `revise` only removes words. -/
theorem revise_sub (csp : CSP) (x y v : Slot) (d : Domains) (w : Word)
    (h : w ∈ (revise csp x y d).2 v) : w ∈ d v := by
  by_cases hv : v = x
  · subst hv
    rw [revise_at] at h
    exact (List.mem_filter.mp h).1
  · rwa [revise_ne csp x y v d hv] at h

/-- The boolean returned by `revise` holds iff some word fails the keep-test. -/
theorem revise_fst_iff (csp : CSP) (x y : Slot) (d : Domains) :
    (revise csp x y d).1 = true ↔ ∃ w ∈ d x, reviseKeep csp x y d w = false := by
  simp [revise]

/-! ## Claims C5, C7, C8 -/

/-- C7: after `enforce_node_consistency`, a word is in a slot's domain iff it
was there before and its length equals the slot's length: every remaining
word satisfies the length constraint, and exactly the words of differing
length were removed. -/
theorem claim_C7_node_consistency (csp : CSP) (d : Domains) (v : Slot) (w : Word)
    (hv : v ∈ csp.vars) :
    w ∈ enforceNodeConsistency csp d v ↔ w ∈ d v ∧ w.length = v.length :=
  enforce_mem csp d v hv w

/-- Witness for C7 at a concrete puzzle, slot and word. -/
theorem claim_C7_witness :
    wCAT ∈ enforceNodeConsistency exDisc (initDomains exDisc) sA ↔
      wCAT ∈ initDomains exDisc sA ∧ wCAT.length = sA.length :=
  claim_C7_node_consistency exDisc (initDomains exDisc) sA wCAT (by decide)

/-- C8: `enforce_node_consistency` is idempotent: a second call leaves every
slot's domain exactly as the first call produced it. -/
theorem claim_C8_node_consistency_idempotent (csp : CSP) (d : Domains) :
    enforceNodeConsistency csp (enforceNodeConsistency csp d) = enforceNodeConsistency csp d := by
  funext v
  unfold enforceNodeConsistency
  by_cases hv : v ∈ csp.vars
  · simp only [hv, if_pos]
    exact List.filter_eq_self.mpr (fun a ha => (List.mem_filter.mp ha).2)
  · simp only [hv, if_neg, not_false_iff, ite_false]

/-- C5: for distinct slots `x ≠ y`, `revise(x, y)` keeps in `domain(x)`
exactly the words having a distinct compatible partner in `domain(y)` (so it
removes exactly the words having none), leaves `domain(y)` unchanged, and
returns `True` iff at least one word was removed from `domain(x)`. -/
theorem claim_C5_revise (csp : CSP) (x y : Slot) (d : Domains) (hxy : x ≠ y) :
    (∀ w, w ∈ (revise csp x y d).2 x ↔
        w ∈ d x ∧ ∃ w2 ∈ d y, w2 ≠ w ∧ Compatible csp x y w w2)
    ∧ (revise csp x y d).2 y = d y
    ∧ ((revise csp x y d).1 = true ↔
        ∃ w ∈ d x, w ∉ (revise csp x y d).2 x) := by
  refine ⟨?_, revise_ne csp x y y d (Ne.symm hxy), ?_⟩
  · intro w
    rw [revise_at, List.mem_filter, reviseKeep_iff]
  · rw [revise_fst_iff]
    constructor
    · rintro ⟨w, hw, hk⟩
      refine ⟨w, hw, ?_⟩
      rw [revise_at, List.mem_filter]
      rintro ⟨-, hk2⟩
      rw [hk] at hk2
      cases hk2
    · rintro ⟨w, hw, hk⟩
      refine ⟨w, hw, ?_⟩
      rw [revise_at, List.mem_filter] at hk
      rcases Bool.eq_false_or_eq_true (reviseKeep csp x y d w) with h | h
      · exact absurd ⟨hw, h⟩ hk
      · exact h

/-- Witness for C5 at a concrete puzzle and pair of distinct slots. -/
theorem claim_C5_witness :
    (wAAA ∈ (revise exCross sA sB (initDomains exCross)).2 sA ↔
        wAAA ∈ initDomains exCross sA ∧
          ∃ w2 ∈ initDomains exCross sB, w2 ≠ wAAA ∧ Compatible exCross sA sB wAAA w2)
    ∧ (revise exCross sA sB (initDomains exCross)).2 sB = initDomains exCross sB
    ∧ ((revise exCross sA sB (initDomains exCross)).1 = true ↔
        ∃ w ∈ initDomains exCross sA,
          w ∉ (revise exCross sA sB (initDomains exCross)).2 sA) :=
  ⟨(claim_C5_revise exCross sA sB (initDomains exCross) (by decide)).1 wAAA,
   (claim_C5_revise exCross sA sB (initDomains exCross) (by decide)).2.1,
   (claim_C5_revise exCross sA sB (initDomains exCross) (by decide)).2.2⟩

/-! ## Termination of the `ac3` worklist loop -/

/-- Every queued arc weighs at least one. -/
theorem arcWeight_pos (csp : CSP) (p : Slot × Slot) : 1 ≤ arcWeight csp p :=
  Nat.le_add_right 1 _

/-- Arcs whose revised slot is a puzzle variable weigh exactly one. -/
theorem arcWeight_eq_one (csp : CSP) (p : Slot × Slot) (h : p.1 ∈ csp.vars) :
    arcWeight csp p = 1 := by
  simp [arcWeight, h]

/-- Queue weight of a cons. -/
theorem queueWeight_cons (csp : CSP) (p : Slot × Slot) (q : List (Slot × Slot)) :
    queueWeight csp (p :: q) = arcWeight csp p + queueWeight csp q := by
  simp [queueWeight]

/-- Queue weight of an append. -/
theorem queueWeight_append (csp : CSP) (q1 q2 : List (Slot × Slot)) :
    queueWeight csp (q1 ++ q2) = queueWeight csp q1 + queueWeight csp q2 := by
  simp [queueWeight]

/-- The arcs re-enqueued after revising `x` weigh at most `x`'s degree. -/
theorem queueWeight_reenq (csp : CSP) (x y : Slot) :
    queueWeight csp (reenq csp x y) ≤ (csp.neighbors x).length := by
  unfold queueWeight reenq
  have hall : ∀ (l : List Slot), (∀ z ∈ l, z ∈ csp.vars) →
      ((l.map (fun z => (z, x))).map (arcWeight csp)).sum = l.length := by
    intro l
    induction l with
    | nil => intro _; simp
    | cons b t ih =>
      intro hmem
      simp only [List.map_cons, List.sum_cons, List.length_cons,
        ih (fun z hz => hmem z (List.mem_cons_of_mem b hz))]
      rw [arcWeight_eq_one csp (b, x) (hmem b (List.mem_cons_self b t))]
      omega
  rw [hall _ (fun z hz => csp.neighbors_mem x z (List.mem_filter.mp hz).1)]
  exact List.length_filter_le _ _

/-- Filtering with a somewhere-false predicate strictly shrinks a list. -/
theorem length_filter_lt (p : α → Bool) (l : List α) (h : ∃ a ∈ l, p a = false) :
    (l.filter p).length < l.length := by
  induction l with
  | nil => simp at h
  | cons b t ih =>
    rcases Bool.eq_false_or_eq_true (p b) with hb | hb
    · rw [List.filter_cons, if_pos (by simp [hb]), List.length_cons, List.length_cons]
      rcases h with ⟨a, ha, hpa⟩
      rcases List.mem_cons.mp ha with rfl | ha
      · rw [hb] at hpa; cases hpa
      · exact Nat.succ_lt_succ (ih ⟨a, ha, hpa⟩)
    · rw [List.filter_cons, if_neg (by simp [hb]), List.length_cons]
      exact Nat.lt_succ_of_le (List.length_filter_le p t)

/-- Lemma: `revise` never grows the measured store size. -/
theorem domSize_revise_le (csp : CSP) (x y : Slot) (d : Domains) :
    domSize csp (revise csp x y d).2 ≤ domSize csp d := by
  apply List.sum_le_sum
  intro v _
  by_cases hv : v = x
  · subst hv
    rw [revise_at]
    exact List.length_filter_le _ _
  · rw [revise_ne csp x y v d hv]

/-- When `revise` removes a word from a measured slot, the store size strictly
shrinks. -/
theorem domSize_revise_lt (csp : CSP) (x y : Slot) (d : Domains)
    (hx : x ∈ csp.vars) (hrev : (revise csp x y d).1 = true) :
    domSize csp (revise csp x y d).2 < domSize csp d := by
  apply List.sum_lt_sum
  · intro v _
    by_cases hv : v = x
    · subst hv
      rw [revise_at]
      exact List.length_filter_le _ _
    · rw [revise_ne csp x y v d hv]
  · refine ⟨x, hx, ?_⟩
    rw [revise_at]
    rcases (revise_fst_iff csp x y d).mp hrev with ⟨w, hw, hk⟩
    exact length_filter_lt _ _ ⟨w, hw, hk⟩

/-- A variable's degree is bounded by `maxDeg`. -/
theorem degree_le_maxDeg (csp : CSP) (x : Slot) (hx : x ∈ csp.vars) :
    (csp.neighbors x).length ≤ maxDeg csp := by
  unfold maxDeg
  have : ∀ (l : List Slot), x ∈ l →
      (csp.neighbors x).length ≤ (l.map (fun v => (csp.neighbors v).length)).foldr max 0 := by
    intro l
    induction l with
    | nil => intro h; cases h
    | cons b t ih =>
      intro h
      rcases List.mem_cons.mp h with rfl | h
      · exact Nat.le_max_left _ _
      · exact Nat.le_trans (ih h) (Nat.le_max_right _ _)
  exact this csp.vars hx

/-- Fuel decrease when `revise` removed nothing: the popped arc is consumed. -/
theorem ac3Fuel_step_norev (csp : CSP) (x y : Slot) (q : List (Slot × Slot)) (d : Domains) :
    ac3Fuel csp q (revise csp x y d).2 + 1 ≤ ac3Fuel csp ((x, y) :: q) d := by
  unfold ac3Fuel
  rw [queueWeight_cons]
  have h1 := arcWeight_pos csp (x, y)
  have h2 : (maxDeg csp + 1) * domSize csp (revise csp x y d).2 ≤
      (maxDeg csp + 1) * domSize csp d :=
    Nat.mul_le_mul_left _ (domSize_revise_le csp x y d)
  omega

/-- Fuel decrease when `revise` removed a word and the re-enqueue happens. -/
theorem ac3Fuel_step_rev (csp : CSP) (x y : Slot) (q : List (Slot × Slot)) (d : Domains)
    (hrev : (revise csp x y d).1 = true) :
    ac3Fuel csp (q ++ reenq csp x y) (revise csp x y d).2 + 1 ≤
      ac3Fuel csp ((x, y) :: q) d := by
  unfold ac3Fuel
  rw [queueWeight_cons, queueWeight_append]
  have hre := queueWeight_reenq csp x y
  by_cases hx : x ∈ csp.vars
  · have hw : arcWeight csp (x, y) = 1 := arcWeight_eq_one csp (x, y) hx
    have hdeg : (csp.neighbors x).length ≤ maxDeg csp := degree_le_maxDeg csp x hx
    have hlt : domSize csp (revise csp x y d).2 + 1 ≤ domSize csp d :=
      domSize_revise_lt csp x y d hx hrev
    have h2 : (maxDeg csp + 1) * (domSize csp (revise csp x y d).2 + 1) ≤
        (maxDeg csp + 1) * domSize csp d :=
      Nat.mul_le_mul_left _ hlt
    have h3 : (maxDeg csp + 1) * (domSize csp (revise csp x y d).2 + 1) =
        (maxDeg csp + 1) * domSize csp (revise csp x y d).2 + (maxDeg csp + 1) := by
      ring
    omega
  · have hw : arcWeight csp (x, y) = 1 + (csp.neighbors x).length := by
      simp [arcWeight, hx]
    have h2 : (maxDeg csp + 1) * domSize csp (revise csp x y d).2 ≤
        (maxDeg csp + 1) * domSize csp d :=
      Nat.mul_le_mul_left _ (domSize_revise_le csp x y d)
    omega

/-- Unfolding `ac3Go` when `revise` removed nothing. -/
theorem ac3Go_step_norev (csp : CSP) (f : Nat) (x y : Slot) (q : List (Slot × Slot))
    (d : Domains) (hrev : (revise csp x y d).1 = false) :
    ac3Go csp (f + 1) ((x, y) :: q) d = ac3Go csp f q (revise csp x y d).2 := by
  simp only [ac3Go, hrev, Bool.false_eq_true, if_false]

/-- Unfolding `ac3Go` when `revise` removed a word but `domain(x)` survives. -/
theorem ac3Go_step_rev (csp : CSP) (f : Nat) (x y : Slot) (q : List (Slot × Slot))
    (d : Domains) (hrev : (revise csp x y d).1 = true)
    (he : ((revise csp x y d).2 x).isEmpty = false) :
    ac3Go csp (f + 1) ((x, y) :: q) d =
      ac3Go csp f (q ++ reenq csp x y) (revise csp x y d).2 := by
  simp only [ac3Go, hrev, he, Bool.false_eq_true, if_false, if_true]

/-- Unfolding `ac3Go` when `revise` emptied `domain(x)`: immediate failure. -/
theorem ac3Go_step_empty (csp : CSP) (f : Nat) (x y : Slot) (q : List (Slot × Slot))
    (d : Domains) (hrev : (revise csp x y d).1 = true)
    (he : ((revise csp x y d).2 x).isEmpty = true) :
    ac3Go csp (f + 1) ((x, y) :: q) d = some (false, (revise csp x y d).2) := by
  simp only [ac3Go, hrev, he, if_true]

/-- Lemma: `ac3Fuel` fuel is always enough for the worklist loop to finish. -/
theorem ac3Go_isSome_of_fuel (csp : CSP) :
    ∀ (f : Nat) (q : List (Slot × Slot)) (d : Domains),
      ac3Fuel csp q d ≤ f → (ac3Go csp f q d).isSome := by
  intro f
  induction f with
  | zero =>
    intro q d h
    cases q with
    | nil => simp [ac3Go]
    | cons p q' =>
      exfalso
      have h1 := arcWeight_pos csp p
      have h2 : queueWeight csp (p :: q') ≤ ac3Fuel csp (p :: q') d :=
        Nat.le_add_right _ _
      rw [queueWeight_cons] at h2
      omega
  | succ f ih =>
    intro q d h
    cases q with
    | nil => simp [ac3Go]
    | cons p q' =>
      obtain ⟨x, y⟩ := p
      rcases Bool.eq_false_or_eq_true (revise csp x y d).1 with hrev | hrev
      · rcases Bool.eq_false_or_eq_true ((revise csp x y d).2 x).isEmpty with he | he
        · rw [ac3Go_step_empty csp f x y q' d hrev he]
          exact Option.isSome_some
        · rw [ac3Go_step_rev csp f x y q' d hrev he]
          exact ih (q' ++ reenq csp x y) (revise csp x y d).2
            (by have := ac3Fuel_step_rev csp x y q' d hrev; omega)
      · rw [ac3Go_step_norev csp f x y q' d hrev]
        exact ih q' (revise csp x y d).2
          (by have := ac3Fuel_step_norev csp x y q' d; omega)

/-! ## `ac3` as a total function and its characterization -/

/-- A finished `ac3Go` run is unchanged by extra fuel. -/
theorem ac3Go_mono (csp : CSP) :
    ∀ (f : Nat) (q : List (Slot × Slot)) (d : Domains) (f' : Nat) (r : Bool × Domains),
      ac3Go csp f q d = some r → f ≤ f' → ac3Go csp f' q d = some r := by
  intro f
  induction f with
  | zero =>
    intro q d f' r h hle
    cases q with
    | nil => simpa [ac3Go] using h
    | cons p q' => simp [ac3Go] at h
  | succ f ih =>
    intro q d f' r h hle
    cases q with
    | nil => simpa [ac3Go] using h
    | cons p q' =>
      obtain ⟨x, y⟩ := p
      obtain ⟨f'', rfl⟩ : ∃ f'', f' = f'' + 1 := ⟨f' - 1, by omega⟩
      rcases Bool.eq_false_or_eq_true (revise csp x y d).1 with hrev | hrev
      · rcases Bool.eq_false_or_eq_true ((revise csp x y d).2 x).isEmpty with he | he
        · rw [ac3Go_step_empty csp f x y q' d hrev he] at h
          rw [ac3Go_step_empty csp f'' x y q' d hrev he]
          exact h
        · rw [ac3Go_step_rev csp f x y q' d hrev he] at h
          rw [ac3Go_step_rev csp f'' x y q' d hrev he]
          exact ih _ _ f'' r h (by omega)
      · rw [ac3Go_step_norev csp f x y q' d hrev] at h
        rw [ac3Go_step_norev csp f'' x y q' d hrev]
        exact ih _ _ f'' r h (by omega)

/-- Any finished `ac3Go` run computes `ac3`. -/
theorem ac3_eq_of_go (csp : CSP) (f : Nat) (q : List (Slot × Slot)) (d : Domains)
    (r : Bool × Domains) (h : ac3Go csp f q d = some r) : ac3 csp q d = r := by
  obtain ⟨r', hr'⟩ := Option.isSome_iff_exists.mp
    (ac3Go_isSome_of_fuel csp (ac3Fuel csp q d) q d le_rfl)
  have h1 := ac3Go_mono csp f q d (max f (ac3Fuel csp q d)) r h (le_max_left _ _)
  have h2 := ac3Go_mono csp (ac3Fuel csp q d) q d (max f (ac3Fuel csp q d)) r' hr'
    (le_max_right _ _)
  rw [h1] at h2
  unfold ac3
  rw [hr', Option.getD_some, Option.some.inj h2]

/-- Lemma: `ac3` on the empty worklist: success, store unchanged. -/
theorem ac3_nil (csp : CSP) (d : Domains) : ac3 csp [] d = (true, d) :=
  ac3_eq_of_go csp 0 [] d (true, d) rfl

/-- Lemma: `ac3` pops the head arc, runs `revise`, fails fast on an emptied domain,
and otherwise appends the re-enqueued arcs at the back of the queue. -/
theorem ac3_cons (csp : CSP) (x y : Slot) (q : List (Slot × Slot)) (d : Domains) :
    ac3 csp ((x, y) :: q) d =
      if (revise csp x y d).1 = true then
        if ((revise csp x y d).2 x).isEmpty = true then (false, (revise csp x y d).2)
        else ac3 csp (q ++ reenq csp x y) (revise csp x y d).2
      else ac3 csp q (revise csp x y d).2 := by
  rcases Bool.eq_false_or_eq_true (revise csp x y d).1 with hrev | hrev
  · rcases Bool.eq_false_or_eq_true ((revise csp x y d).2 x).isEmpty with he | he
    · have hcons : ac3Go csp 1 ((x, y) :: q) d = some (false, (revise csp x y d).2) :=
        ac3Go_step_empty csp 0 x y q d hrev he
      rw [ac3_eq_of_go csp 1 _ _ _ hcons, if_pos hrev, if_pos he]
    · obtain ⟨r2, hr2⟩ := Option.isSome_iff_exists.mp
        (ac3Go_isSome_of_fuel csp
          (ac3Fuel csp (q ++ reenq csp x y) (revise csp x y d).2) _ _ le_rfl)
      have hcons : ac3Go csp (ac3Fuel csp (q ++ reenq csp x y) (revise csp x y d).2 + 1)
          ((x, y) :: q) d = some r2 := by
        rw [ac3Go_step_rev csp _ x y q d hrev he]
        exact hr2
      rw [ac3_eq_of_go csp _ _ _ _ hcons, if_pos hrev, if_neg (by simp [he]),
        ac3_eq_of_go csp _ _ _ _ hr2]
  · obtain ⟨r2, hr2⟩ := Option.isSome_iff_exists.mp
      (ac3Go_isSome_of_fuel csp (ac3Fuel csp q (revise csp x y d).2) _ _ le_rfl)
    have hcons : ac3Go csp (ac3Fuel csp q (revise csp x y d).2 + 1)
        ((x, y) :: q) d = some r2 := by
      rw [ac3Go_step_norev csp _ x y q d hrev]
      exact hr2
    rw [ac3_eq_of_go csp _ _ _ _ hcons, if_neg (by simp [hrev]),
      ac3_eq_of_go csp _ _ _ _ hr2]

/-- When `revise` removed nothing, the whole store is unchanged. -/
theorem revise_eq_of_not_rev (csp : CSP) (x y : Slot) (d : Domains)
    (h : (revise csp x y d).1 = false) : ∀ v, (revise csp x y d).2 v = d v := by
  intro v
  by_cases hv : v = x
  · rw [hv, revise_at]
    apply List.filter_eq_self.mpr
    intro a ha
    have h0 : (d x).any (fun wx => !(reviseKeep csp x y d wx)) = false := h
    rw [List.any_eq_false] at h0
    simpa using h0 a ha
  · exact revise_ne csp x y v d hv

/-- Domains only shrink along an `ac3Go` run. -/
theorem ac3Go_sub (csp : CSP) :
    ∀ (f : Nat) (q : List (Slot × Slot)) (d : Domains) (r : Bool × Domains),
      ac3Go csp f q d = some r → ∀ v w, w ∈ r.2 v → w ∈ d v := by
  intro f
  induction f with
  | zero =>
    intro q d r h v w hw
    cases q with
    | nil =>
      simp only [ac3Go, Option.some.injEq] at h
      rw [← h] at hw
      exact hw
    | cons p q' => simp [ac3Go] at h
  | succ f ih =>
    intro q d r h v w hw
    cases q with
    | nil =>
      simp only [ac3Go, Option.some.injEq] at h
      rw [← h] at hw
      exact hw
    | cons p q' =>
      obtain ⟨x, y⟩ := p
      rcases Bool.eq_false_or_eq_true (revise csp x y d).1 with hrev | hrev
      · rcases Bool.eq_false_or_eq_true ((revise csp x y d).2 x).isEmpty with he | he
        · rw [ac3Go_step_empty csp f x y q' d hrev he, Option.some.injEq] at h
          rw [← h] at hw
          exact revise_sub csp x y v d w hw
        · rw [ac3Go_step_rev csp f x y q' d hrev he] at h
          exact revise_sub csp x y v d w (ih _ _ r h v w hw)
      · rw [ac3Go_step_norev csp f x y q' d hrev] at h
        exact revise_sub csp x y v d w (ih _ _ r h v w hw)

/-- A failing `ac3Go` run emptied some domain that was nonempty before. -/
theorem ac3Go_false_emptied (csp : CSP) :
    ∀ (f : Nat) (q : List (Slot × Slot)) (d : Domains) (r : Bool × Domains),
      ac3Go csp f q d = some r → r.1 = false → ∃ v, r.2 v = [] ∧ d v ≠ [] := by
  intro f
  induction f with
  | zero =>
    intro q d r h hf
    cases q with
    | nil =>
      simp only [ac3Go, Option.some.injEq] at h
      rw [← h] at hf
      cases hf
    | cons p q' => simp [ac3Go] at h
  | succ f ih =>
    intro q d r h hf
    cases q with
    | nil =>
      simp only [ac3Go, Option.some.injEq] at h
      rw [← h] at hf
      cases hf
    | cons p q' =>
      obtain ⟨x, y⟩ := p
      rcases Bool.eq_false_or_eq_true (revise csp x y d).1 with hrev | hrev
      · rcases Bool.eq_false_or_eq_true ((revise csp x y d).2 x).isEmpty with he | he
        · rw [ac3Go_step_empty csp f x y q' d hrev he, Option.some.injEq] at h
          refine ⟨x, ?_, ?_⟩
          · rw [← h]
            exact List.isEmpty_iff.mp he
          · rcases (revise_fst_iff csp x y d).mp hrev with ⟨w, hw, -⟩
            exact List.ne_nil_of_mem hw
        · rw [ac3Go_step_rev csp f x y q' d hrev he] at h
          rcases ih _ _ r h hf with ⟨v, hv1, hv2⟩
          refine ⟨v, hv1, ?_⟩
          rcases List.exists_mem_of_ne_nil _ hv2 with ⟨w, hw⟩
          exact List.ne_nil_of_mem (revise_sub csp x y v d w hw)
      · rw [ac3Go_step_norev csp f x y q' d hrev] at h
        rcases ih _ _ r h hf with ⟨v, hv1, hv2⟩
        refine ⟨v, hv1, ?_⟩
        rcases List.exists_mem_of_ne_nil _ hv2 with ⟨w, hw⟩
        exact List.ne_nil_of_mem (revise_sub csp x y v d w hw)

/-- Along a successful `ac3Go` run no nonempty domain becomes empty. -/
theorem ac3Go_true_no_emptied (csp : CSP) :
    ∀ (f : Nat) (q : List (Slot × Slot)) (d : Domains) (r : Bool × Domains),
      ac3Go csp f q d = some r → r.1 = true → ∀ v, r.2 v = [] → d v = [] := by
  intro f
  induction f with
  | zero =>
    intro q d r h ht v hv
    cases q with
    | nil =>
      simp only [ac3Go, Option.some.injEq] at h
      rw [← h] at hv
      exact hv
    | cons p q' => simp [ac3Go] at h
  | succ f ih =>
    intro q d r h ht v hv
    cases q with
    | nil =>
      simp only [ac3Go, Option.some.injEq] at h
      rw [← h] at hv
      exact hv
    | cons p q' =>
      obtain ⟨x, y⟩ := p
      rcases Bool.eq_false_or_eq_true (revise csp x y d).1 with hrev | hrev
      · rcases Bool.eq_false_or_eq_true ((revise csp x y d).2 x).isEmpty with he | he
        · rw [ac3Go_step_empty csp f x y q' d hrev he, Option.some.injEq] at h
          rw [← h] at ht
          cases ht
        · rw [ac3Go_step_rev csp f x y q' d hrev he] at h
          have h2 := ih _ _ r h ht v hv
          by_cases hvx : v = x
          · subst hvx
            rw [h2] at he
            cases he
          · rw [revise_ne csp x y v d hvx] at h2
            exact h2
      · rw [ac3Go_step_norev csp f x y q' d hrev] at h
        have h2 := ih _ _ r h ht v hv
        rw [revise_eq_of_not_rev csp x y d hrev v] at h2
        exact h2

/-! ## Claims C6 and C9 -/

/-- C6: `ac3` processes its worklist as a FIFO queue — it pops the head arc,
and a revision that removed words either fails immediately (emptied domain)
or re-enqueues the arcs `(z, x)`, `z` a neighbor of `x` other than `y`, at
the back; it succeeds exactly when the queue is exhausted with no domain
having been emptied, and fails exactly when a (previously nonempty) domain
emptied during processing. -/
theorem claim_C6_ac3 (csp : CSP) :
    (∀ (d : Domains), ac3 csp [] d = (true, d))
    ∧ (∀ (x y : Slot) (q : List (Slot × Slot)) (d : Domains),
        ac3 csp ((x, y) :: q) d =
          if (revise csp x y d).1 = true then
            if ((revise csp x y d).2 x).isEmpty = true then (false, (revise csp x y d).2)
            else ac3 csp (q ++ reenq csp x y) (revise csp x y d).2
          else ac3 csp q (revise csp x y d).2)
    ∧ (∀ (q : List (Slot × Slot)) (d : Domains),
        (ac3 csp q d).1 = false ↔ ∃ v, (ac3 csp q d).2 v = [] ∧ d v ≠ []) := by
  refine ⟨ac3_nil csp, ac3_cons csp, ?_⟩
  intro q d
  obtain ⟨r, hr⟩ := Option.isSome_iff_exists.mp
    (ac3Go_isSome_of_fuel csp (ac3Fuel csp q d) q d le_rfl)
  rw [ac3_eq_of_go csp _ _ _ _ hr]
  constructor
  · intro hf
    exact ac3Go_false_emptied csp _ _ _ _ hr hf
  · rintro ⟨v, hv1, hv2⟩
    rcases Bool.eq_false_or_eq_true r.1 with ht | ht
    · exact absurd (ac3Go_true_no_emptied csp _ _ _ _ hr ht v hv1) hv2
    · exact ht

/-- C9: node consistency, `revise` and `ac3` only remove words (every
resulting domain is a subset of the one before), and they never create or
delete store entries: node consistency leaves slots outside the key set
untouched and `revise(x, y)` modifies no slot but `x`. -/
theorem claim_C9_monotone_shrink (csp : CSP) :
    (∀ (d : Domains) (v : Slot) (w : Word), w ∈ enforceNodeConsistency csp d v → w ∈ d v)
    ∧ (∀ (x y : Slot) (d : Domains) (v : Slot) (w : Word),
        w ∈ (revise csp x y d).2 v → w ∈ d v)
    ∧ (∀ (q : List (Slot × Slot)) (d : Domains) (v : Slot) (w : Word),
        w ∈ (ac3 csp q d).2 v → w ∈ d v)
    ∧ (∀ (d : Domains) (v : Slot), v ∉ csp.vars → enforceNodeConsistency csp d v = d v)
    ∧ (∀ (x y : Slot) (d : Domains) (v : Slot), v ≠ x → (revise csp x y d).2 v = d v) := by
  refine ⟨?_, ?_, ?_, ?_, ?_⟩
  · intro d v w hw
    unfold enforceNodeConsistency at hw
    by_cases hv : v ∈ csp.vars
    · rw [if_pos hv] at hw
      exact (List.mem_filter.mp hw).1
    · rwa [if_neg hv] at hw
  · intro x y d v w
    exact revise_sub csp x y v d w
  · intro q d v w hw
    obtain ⟨r, hr⟩ := Option.isSome_iff_exists.mp
      (ac3Go_isSome_of_fuel csp (ac3Fuel csp q d) q d le_rfl)
    rw [ac3_eq_of_go csp _ _ _ _ hr] at hw
    exact ac3Go_sub csp _ _ _ _ hr v w hw
  · exact fun d v hv => enforce_not_mem csp d v hv
  · intro x y d v hv
    exact revise_ne csp x y v d hv

/-- Witness for C9: a concrete run of the global `ac3` pass only shrank a
domain. -/
theorem claim_C9_witness :
    wAAA ∈ (ac3 exCross (globalArcs exCross)
        (enforceNodeConsistency exCross (initDomains exCross))).2 sB
    ∧ wAAA ∈ enforceNodeConsistency exCross (initDomains exCross) sB :=
  ⟨by decide,
   (claim_C9_monotone_shrink exCross).2.2.1 (globalArcs exCross)
     (enforceNodeConsistency exCross (initDomains exCross)) sB wAAA (by decide)⟩

/-! ## Stable sorting lemmas, for the MRV selection -/

/-- Membership through stable insertion. -/
theorem mem_insertLe (le : α → α → Bool) (x b : α) (l : List α) :
    b ∈ insertLe le x l ↔ b = x ∨ b ∈ l := by
  induction l with
  | nil => simp [insertLe]
  | cons y ys ih =>
    by_cases h : le x y = true
    · simp only [insertLe, if_pos h, List.mem_cons]
    · simp only [insertLe, if_neg h, List.mem_cons, ih]
      tauto

/-- Membership through stable sorting. -/
theorem mem_stableSortBy (le : α → α → Bool) (b : α) (l : List α) :
    b ∈ stableSortBy le l ↔ b ∈ l := by
  induction l with
  | nil => simp [stableSortBy]
  | cons y ys ih =>
    simp only [stableSortBy, mem_insertLe, List.mem_cons, ih]

/-- Stable insertion preserves sortedness for a total transitive order. -/
theorem pairwise_insertLe (le : α → α → Bool)
    (htot : ∀ a b, le a b = true ∨ le b a = true)
    (htrans : ∀ a b c, le a b = true → le b c = true → le a c = true)
    (x : α) (l : List α) (hl : l.Pairwise (fun a b => le a b = true)) :
    (insertLe le x l).Pairwise (fun a b => le a b = true) := by
  induction l with
  | nil => simp [insertLe]
  | cons y ys ih =>
    cases hl with
    | cons hy hys =>
      by_cases h : le x y = true
      · rw [insertLe, if_pos h]
        refine List.Pairwise.cons ?_ (List.Pairwise.cons hy hys)
        intro b hb
        rcases List.mem_cons.mp hb with rfl | hb
        · exact h
        · exact htrans x y b h (hy b hb)
      · rw [insertLe, if_neg h]
        have hyx : le y x = true := (htot x y).resolve_left h
        refine List.Pairwise.cons ?_ (ih hys)
        intro b hb
        rcases (mem_insertLe le x b ys).mp hb with rfl | hb
        · exact hyx
        · exact hy b hb

/-- Stable sorting sorts, for a total transitive order. -/
theorem pairwise_stableSortBy (le : α → α → Bool)
    (htot : ∀ a b, le a b = true ∨ le b a = true)
    (htrans : ∀ a b c, le a b = true → le b c = true → le a c = true)
    (l : List α) :
    (stableSortBy le l).Pairwise (fun a b => le a b = true) := by
  induction l with
  | nil => exact List.Pairwise.nil
  | cons y ys ih => exact pairwise_insertLe le htot htrans y (stableSortBy le ys) ih

/-- The sort-key order is reflexive. -/
theorem lexLe_refl (p : Nat × Int) : lexLe p p = true := by
  simp [lexLe]

/-- The sort-key order is total. -/
theorem lexLe_total (p q : Nat × Int) : lexLe p q = true ∨ lexLe q p = true := by
  simp only [lexLe, Bool.or_eq_true, Bool.and_eq_true, decide_eq_true_eq, beq_iff_eq]
  omega

/-- The sort-key order is transitive. -/
theorem lexLe_trans (p q r : Nat × Int) (h1 : lexLe p q = true) (h2 : lexLe q r = true) :
    lexLe p r = true := by
  simp only [lexLe, Bool.or_eq_true, Bool.and_eq_true, decide_eq_true_eq, beq_iff_eq] at h1 h2 ⊢
  omega

/-- What `select_unassigned_variable` guarantees: the returned slot is an
unassigned variable whose sort key (domain size, minus degree) is minimal
among the unassigned variables. -/
theorem select_min (csp : CSP) (d : Domains) (a : Assignment) (var : Slot)
    (h : selectUnassignedVariable csp d a = some var) :
    var ∈ csp.vars ∧ hasKey a var = false ∧
      ∀ u ∈ csp.vars, hasKey a u = false →
        lexLe (selKey csp d var) (selKey csp d u) = true := by
  unfold selectUnassignedVariable at h
  cases hs : stableSortBy (fun u v => lexLe (selKey csp d u) (selKey csp d v))
      (csp.vars.filter (fun v => !(hasKey a v))) with
  | nil => rw [hs] at h; cases h
  | cons v0 t =>
    rw [hs] at h
    have hv0 : v0 = var := Option.some.inj h
    subst hv0
    have hmemv : v0 ∈ csp.vars.filter (fun v => !(hasKey a v)) := by
      have : v0 ∈ stableSortBy (fun u v => lexLe (selKey csp d u) (selKey csp d v))
          (csp.vars.filter (fun v => !(hasKey a v))) := by
        rw [hs]; exact List.mem_cons_self v0 t
      exact (mem_stableSortBy _ v0 _).mp this
    have hmemv2 := List.mem_filter.mp hmemv
    refine ⟨hmemv2.1, by simpa using hmemv2.2, ?_⟩
    intro u hu hku
    have hus : u ∈ stableSortBy (fun u v => lexLe (selKey csp d u) (selKey csp d v))
        (csp.vars.filter (fun v => !(hasKey a v))) := by
      rw [mem_stableSortBy]
      exact List.mem_filter.mpr ⟨hu, by simp [hku]⟩
    rw [hs] at hus
    have hpw := pairwise_stableSortBy (fun u v => lexLe (selKey csp d u) (selKey csp d v))
      (fun a b => lexLe_total _ _) (fun a b c => lexLe_trans _ _ _)
      (csp.vars.filter (fun v => !(hasKey a v)))
    rw [hs] at hpw
    cases hpw with
    | cons hhead _ =>
      rcases List.mem_cons.mp hus with rfl | hus
      · exact lexLe_refl _
      · exact hhead u hus

/-! ## Claim C2: solve after a failed global AC-3 pass -/

/-- C2 (amended): if the global AC-3 pass leaves some variable's domain
empty, `solve` still returns the no-solution result — but it does enter the
backtracking search (`solve` ignores `ac3`'s boolean): the emptied slot has
minimal domain size, so MRV selects it first, it has no candidate values,
and the search fails immediately. -/
theorem claim_C2_amended (csp : CSP) (h1 : csp.vars ≠ [])
    (h2 : ∃ v ∈ csp.vars, solveStart csp v = []) : solve csp = none := by
  obtain ⟨ve, hve, hvee⟩ := h2
  have hn0 : csp.vars.length ≠ 0 := by
    intro h0
    exact h1 (List.eq_nil_of_length_eq_zero h0)
  have hcomp : assignmentComplete csp [] = false := by
    simp only [assignmentComplete, List.length_nil, beq_eq_false_iff_ne, ne_eq]
    exact hn0
  have hgd : getDom [solveStart csp] 0 = solveStart csp := rfl
  unfold solve solveRun
  simp only [bt, hcomp, Bool.false_eq_true, if_false, hgd]
  cases hsel : selectUnassignedVariable csp (solveStart csp) [] with
  | none =>
    exfalso
    unfold selectUnassignedVariable at hsel
    cases hs : stableSortBy
        (fun u v => lexLe (selKey csp (solveStart csp) u) (selKey csp (solveStart csp) v))
        (csp.vars.filter (fun v => !(hasKey [] v))) with
    | nil =>
      have hmem : ve ∈ csp.vars.filter (fun v => !(hasKey [] v)) :=
        List.mem_filter.mpr ⟨hve, by simp [hasKey]⟩
      have h3 := (mem_stableSortBy
        (fun u v => lexLe (selKey csp (solveStart csp) u) (selKey csp (solveStart csp) v))
        ve (csp.vars.filter (fun v => !(hasKey [] v)))).mpr hmem
      rw [hs] at h3
      cases h3
    | cons v0 t =>
      rw [hs] at hsel
      cases hsel
  | some var =>
    have hk := (select_min csp (solveStart csp) [] var hsel).2.2 ve hve rfl
    have hlen : (solveStart csp var).length = 0 := by
      simp only [selKey, lexLe, Bool.or_eq_true, Bool.and_eq_true,
        decide_eq_true_eq, beq_iff_eq] at hk
      rw [hvee] at hk
      simp only [List.length_nil] at hk
      omega
    have hdom : solveStart csp var = [] := List.eq_nil_of_length_eq_zero hlen
    have hord : orderDomainValues csp (solveStart csp) var = [] := by
      unfold orderDomainValues
      rw [hdom]
      rfl
    show (btLoop csp (bt csp csp.vars.length) var [solveStart csp].length
        (orderDomainValues csp (solveStart csp) var)
        ([solveStart csp] ++ [solveStart csp]) 0 []).res = none
    rw [hord]
    rfl

/-- Witness for the amended C2 at the crossing-pair puzzle, whose global
AC-3 pass empties the first slot's domain. -/
theorem claim_C2_amended_witness :
    exCross.vars ≠ [] ∧ (∃ v ∈ exCross.vars, solveStart exCross v = []) ∧
      solve exCross = none :=
  ⟨by decide, ⟨sA, by decide, by decide⟩,
   claim_C2_amended exCross (by decide) ⟨sA, by decide, by decide⟩⟩

/-- C2 counterexample: at the crossing-pair puzzle the global AC-3 pass
empties a domain (it returns `False`), yet `solve` still enters the
backtracking search — observable because the search's first frame allocates
its `deepcopy` snapshot, growing the heap of domain-store objects from one
to two — before returning the no-solution result.  The claim's
"without entering the backtracking search" is therefore false of the code,
which ignores `ac3`'s boolean result. -/
theorem claim_C2_counterexample :
    (ac3 exCross (globalArcs exCross)
        (enforceNodeConsistency exCross (initDomains exCross))).1 = false
    ∧ (∃ v ∈ exCross.vars, solveStart exCross v = [])
    ∧ (solveRun exCross).heap.length = 2
    ∧ solve exCross = none := by
  refine ⟨by decide, ⟨sA, by decide, by decide⟩, by decide, by decide⟩

/-! ## Claims C1 and C3: the missing consistency check on the candidate -/

/-- C1 (code bug): on the two-disconnected-slots puzzle with the single word
CAT, `solve` returns a complete assignment giving both slots the same word —
an assignment its own `consistent` check rejects.  The claim's distinctness
guarantee fails because `backtrack` checks `consistent(assignment)` before
adding the candidate, and a complete assignment is returned without any
final consistency check. -/
theorem claim_C1_solver_returns_inconsistent_assignment :
    solve exDisc = some [(sA, wCAT), (sB, wCAT)]
    ∧ consistent exDisc [(sA, wCAT), (sB, wCAT)] = false := by
  refine ⟨by decide, by decide⟩

/-- C3 (code bug): in the frame that already holds `sA ↦ CAT`, the search
commits `CAT` to `sB` — and even returns that assignment — although the
partial assignment extended with the candidate is inconsistent.  The code
tests `consistent(assignment)` on the assignment without the candidate,
not on the extension. -/
theorem claim_C3_commits_inconsistent_candidate :
    consistent exDisc [(sA, wCAT), (sB, wCAT)] = false
    ∧ (bt exDisc 2 [solveStart exDisc] 0 [(sA, wCAT)]).res =
        some [(sA, wCAT), (sB, wCAT)] := by
  refine ⟨by decide, by decide⟩

/-! ## Claim C4: the snapshot-restore discipline -/

/-- C4 (code bug): on the triangle puzzle the outermost backtracking frame
tries two candidates for its selected slot, both fail, and after the final
undo step (`self.domains = prev_domains`) the domain store does not match the
pre-branch snapshot: the snapshot object itself was mutated during the second
iteration, because `self.domains = prev_domains` aliases the store to the
snapshot without copying.  Slot `sC`'s domain ends empty although the
snapshot held both words. -/
theorem claim_C4_domain_store_not_restored :
    (solveRun exTri).res = none
    ∧ solveStart exTri sC = [wAAB, wACC]
    ∧ getDom (solveRun exTri).heap (solveRun exTri).cur sC = []
    ∧ getDom (solveRun exTri).heap (solveRun exTri).cur sA = [wACC] := by
  refine ⟨by decide, by decide, by decide, by decide⟩

/-! ## Claim C10: backtrack restores the assignment dict on failure -/

/-- Lemma: `del assignment[var]` after appending `(var, value)` to a dict without
key `var` restores the dict exactly. -/
theorem delKey_append (a : Assignment) (var : Slot) (value : Word)
    (hvar : hasKey a var = false) : delKey (a ++ [(var, value)]) var = a := by
  induction a with
  | nil => simp [delKey, List.eraseP]
  | cons p t ih =>
    have h1 : (p.1 == var) = false := by
      rcases Bool.eq_false_or_eq_true (p.1 == var) with hb | hb
      · rw [hasKey, List.any_cons, hb] at hvar
        simp at hvar
      · exact hb
    have h2 : hasKey t var = false := by
      rw [hasKey, List.any_cons] at hvar
      rcases Bool.or_eq_false_iff.mp hvar with ⟨-, h⟩
      exact h
    rw [List.cons_append, delKey, List.eraseP_cons, h1]
    simp only [cond_false]
    rw [← delKey, ih h2]

theorem btLoop_cons_true (csp : CSP) (rec : Heap → Nat → Assignment → BTRes)
    (var : Slot) (prevRef : Nat) (value : Word) (rest : List Word)
    (h : Heap) (c : Nat) (a : Assignment) (hcons : consistent csp a = true) :
    btLoop csp rec var prevRef (value :: rest) h c a =
      if truthy (rec (h.set c (branchDomains csp var value (getDom h c))) c
          (a ++ [(var, value)])).res then
        rec (h.set c (branchDomains csp var value (getDom h c))) c (a ++ [(var, value)])
      else
        btLoop csp rec var prevRef rest
          (rec (h.set c (branchDomains csp var value (getDom h c))) c
            (a ++ [(var, value)])).heap
          prevRef
          (delKey (rec (h.set c (branchDomains csp var value (getDom h c))) c
            (a ++ [(var, value)])).assign var) := by
  simp only [btLoop, if_pos hcons]

theorem btLoop_cons_false (csp : CSP) (rec : Heap → Nat → Assignment → BTRes)
    (var : Slot) (prevRef : Nat) (value : Word) (rest : List Word)
    (h : Heap) (c : Nat) (a : Assignment) (hcons : consistent csp a = false) :
    btLoop csp rec var prevRef (value :: rest) h c a =
      btLoop csp rec var prevRef rest h c a := by
  rw [btLoop]
  rw [if_neg (by simp [hcons])]

theorem btLoop_restore (csp : CSP) (rec : Heap → Nat → Assignment → BTRes) (var : Slot)
    (prevRef : Nat)
    (hrecNone : ∀ h' c' a', (rec h' c' a').res = none → (rec h' c' a').assign = a')
    (hrecSome : ∀ h' c' a' sol, (rec h' c' a').res = some sol →
        (rec h' c' a').assign = sol ∧ ∃ t, sol = a' ++ t)
    (a : Assignment) (hvar : hasKey a var = false) :
    ∀ (values : List Word) (h : Heap) (c : Nat),
      ((btLoop csp rec var prevRef values h c a).res = none →
          (btLoop csp rec var prevRef values h c a).assign = a)
      ∧ (∀ sol, (btLoop csp rec var prevRef values h c a).res = some sol →
          (btLoop csp rec var prevRef values h c a).assign = sol ∧ ∃ t, sol = a ++ t) := by
  intro values
  induction values with
  | nil =>
    intro h c
    refine ⟨fun _ => rfl, fun sol hsol => ?_⟩
    cases hsol
  | cons value rest ih =>
    intro h c
    rcases Bool.eq_false_or_eq_true (consistent csp a) with hcons | hcons
    · rw [btLoop_cons_true csp rec var prevRef value rest h c a hcons]
      cases hR : (rec (h.set c (branchDomains csp var value (getDom h c))) c
          (a ++ [(var, value)])).res with
      | none =>
        simp only [hR, truthy, Bool.false_eq_true, if_false]
        rw [hrecNone _ _ _ hR, delKey_append a var value hvar]
        exact ih _ _
      | some sol2 =>
        rcases Bool.eq_false_or_eq_true sol2.isEmpty with hemp | hemp
        · exfalso
          rcases (hrecSome _ _ _ sol2 hR).2 with ⟨t, ht⟩
          rw [List.isEmpty_iff.mp hemp] at ht
          simp at ht
        · simp only [hR, truthy, hemp, Bool.not_false, if_true]
          refine ⟨fun h0 => ?_, fun sol hsol => ?_⟩
          · cases h0
          · have hs2 := Option.some.inj hsol
            subst hs2
            rcases hrecSome _ _ _ sol2 hR with ⟨hass, t, ht⟩
            refine ⟨hass, (var, value) :: t, ?_⟩
            rw [ht, List.append_assoc]
            rfl
    · rw [btLoop_cons_false csp rec var prevRef value rest h c a hcons]
      exact ih h c

theorem bt_restore (csp : CSP) :
    ∀ (fuel : Nat) (h : Heap) (c : Nat) (a : Assignment),
      ((bt csp fuel h c a).res = none → (bt csp fuel h c a).assign = a)
      ∧ (∀ sol, (bt csp fuel h c a).res = some sol →
          (bt csp fuel h c a).assign = sol ∧ ∃ t, sol = a ++ t) := by
  intro fuel
  induction fuel with
  | zero =>
    intro h c a
    refine ⟨fun _ => rfl, fun sol hsol => ?_⟩
    cases hsol
  | succ f ih =>
    intro h c a
    rcases Bool.eq_false_or_eq_true (assignmentComplete csp a) with hcomp | hcomp
    · rw [show bt csp (f + 1) h c a = ⟨some a, h, c, a⟩ from by
        simp only [bt, hcomp, if_true]]
      refine ⟨fun h0 => ?_, fun sol hsol => ?_⟩
      · cases h0
      · have hs := Option.some.inj hsol
        subst hs
        exact ⟨rfl, [], by simp⟩
    · cases hsel : selectUnassignedVariable csp (getDom h c) a with
      | none =>
        rw [show bt csp (f + 1) h c a = ⟨none, h, c, a⟩ from by
          simp only [bt, hcomp, Bool.false_eq_true, if_false, hsel]]
        refine ⟨fun _ => rfl, fun sol hsol => ?_⟩
        cases hsol
      | some var =>
        rw [show bt csp (f + 1) h c a = btLoop csp (bt csp f) var h.length
            (orderDomainValues csp (getDom h c) var) (h ++ [getDom h c]) c a from by
          simp only [bt, hcomp, Bool.false_eq_true, if_false, hsel]]
        exact btLoop_restore csp (bt csp f) var h.length
          (fun h' c' a' => (ih h' c' a').1) (fun h' c' a' => (ih h' c' a').2) a
          ((select_min csp (getDom h c) a var hsel).2.1)
          (orderDomainValues csp (getDom h c) var) (h ++ [getDom h c]) c

/-- C10: whenever `backtrack` returns the failure result `None`, the
assignment dict holds exactly the entries it held at the moment of the call:
every tentatively committed value has been removed again. -/
theorem claim_C10_backtrack_restores_assignment (csp : CSP) (fuel : Nat)
    (h : Heap) (c : Nat) (a : Assignment)
    (hn : (bt csp fuel h c a).res = none) : (bt csp fuel h c a).assign = a :=
  (bt_restore csp fuel h c a).1 hn

/-- Witness for C10: the failing solve of the triangle puzzle leaves the
assignment dict empty, as it started. -/
theorem claim_C10_witness :
    (bt exTri (exTri.vars.length + 1) [solveStart exTri] 0 []).res = none
    ∧ (bt exTri (exTri.vars.length + 1) [solveStart exTri] 0 []).assign = [] :=
  ⟨by decide,
   claim_C10_backtrack_restores_assignment exTri (exTri.vars.length + 1)
     [solveStart exTri] 0 [] (by decide)⟩
